import Mathlib

/-!
Verification of the interval-overlap classification, intron pruning and
containment-count routines of the SVMmycointrons repository
(`pruning/prune_tools.py`, `intragen/cutting_diagnostics.py`).

Sequences are modelled as `List Char`, Python integers as `Int`, Python
dictionaries (in insertion order) as association lists.  Python code that can
raise an exception is modelled with `Except`.
-/

namespace PruneTools

/-- The two ways `find_overlaps` can abort: the `/` at
`prune_tools.py:69` raising `ZeroDivisionError`, and the `assert` at
`prune_tools.py:77` raising `AssertionError`. -/
inductive OverlapError where
  | divByZero
  | assertFail
deriving DecidableEq, Repr

/-- Loop state of the scan in `find_overlaps` (`prune_tools.py:55-58`):
`last_start`/`last_end` from the previous interval, the two partition lists,
and the `correction` counter.  The overlap ratio computed at line 69 is only
written to the log, so its value is not part of the state; its division is
modelled by the `divByZero` error when the divisor is zero. -/
structure OverlapState where
  last_start : Int
  last_end : Int
  non_overlap : List (Int × Int)
  overlap : List (Int × Int × Int × Int)
  correction : Nat
deriving DecidableEq, Repr

/-- One iteration of the `for i, (start, end) in enumerate(positions)` loop
(`prune_tools.py:59-75`): on `start <= last_end` record the overlap pair,
remove `(last_start, last_end)` from `non_overlap` if present (else bump
`correction`), and compute the overlap ratio — whose division raises
`ZeroDivisionError` when `last_end == last_start`; otherwise append the
interval to `non_overlap`.  Finally update `last_end`, `last_start`. -/
def overlapStep (st : OverlapState) (p : Int × Int) : Except OverlapError OverlapState :=
  let start := p.1
  let stop := p.2
  if start ≤ st.last_end then
    let overlap' := st.overlap ++ [(st.last_start, st.last_end, start, stop)]
    let (non_overlap', correction') :=
      if (st.last_start, st.last_end) ∈ st.non_overlap then
        (st.non_overlap.erase (st.last_start, st.last_end), st.correction)
      else
        (st.non_overlap, st.correction + 1)
    if st.last_end - st.last_start = 0 then
      .error .divByZero
    else
      .ok ⟨start, stop, non_overlap', overlap', correction'⟩
  else
    .ok ⟨start, stop, st.non_overlap ++ [(start, stop)], st.overlap, st.correction⟩

/-- The per-scaffold body of `find_overlaps` (`prune_tools.py:55-77`): run the
scan from `last_end, last_start = 0, 0` and empty lists, then check the
`assert` of line 77. -/
def findOverlapsScaffold (positions : List (Int × Int)) :
    Except OverlapError OverlapState := do
  let st ← positions.foldlM overlapStep ⟨0, 0, [], [], 0⟩
  if (positions.length : Int) =
      st.non_overlap.length + 2 * st.overlap.length - st.correction then
    .ok st
  else
    .error .assertFail

/-- Function `find_overlaps` (`prune_tools.py:47-80`): process every scaffold of the
input dictionary; any exception aborts the whole call. -/
def find_overlaps (intronCoords : List (String × List (Int × Int))) :
    Except OverlapError (List (String × OverlapState)) :=
  intronCoords.mapM fun g => do
    let st ← findOverlapsScaffold g.2
    pure (g.1, st)

/-- The quantity the `assert` at `prune_tools.py:77` compares with the number
of processed intervals. -/
def overlapMeasure (st : OverlapState) : Int :=
  (st.non_overlap.length : Int) + 2 * st.overlap.length - st.correction

theorem exceptPure {ε α : Type} (a : α) : (pure a : Except ε α) = .ok a := rfl

theorem exceptBindOk {ε α β : Type} (a : α) (f : α → Except ε β) :
    (Except.ok a >>= f) = f a := rfl

theorem exceptBindError {ε α β : Type} (e : ε) (f : α → Except ε β) :
    ((Except.error e : Except ε α) >>= f) = Except.error e := rfl

theorem exceptPureBind {ε α β : Type} (a : α) (f : α → Except ε β) :
    ((pure a : Except ε α) >>= f) = f a := rfl

theorem overlapStep_ne_assertFail (st : OverlapState) (p : Int × Int) :
    overlapStep st p ≠ .error .assertFail := by
  unfold overlapStep
  dsimp only
  split
  · split
    · simp
    · simp
  · simp

theorem overlapStep_measure (st st' : OverlapState) (p : Int × Int)
    (h : overlapStep st p = .ok st') :
    overlapMeasure st' = overlapMeasure st + 1 := by
  unfold overlapStep at h
  dsimp only at h
  split at h
  · by_cases hmem : (st.last_start, st.last_end) ∈ st.non_overlap
    · simp only [if_pos hmem] at h
      split at h
      · exact absurd h (by simp)
      · have hlen : (st.non_overlap.erase (st.last_start, st.last_end)).length =
            st.non_overlap.length - 1 := List.length_erase_of_mem hmem
        have hpos : 1 ≤ st.non_overlap.length := List.length_pos.mpr
          (List.ne_nil_of_mem hmem)
        cases h
        simp only [overlapMeasure, hlen, List.length_append, List.length_cons,
          List.length_nil]
        push_cast [Nat.cast_sub hpos]
        ring
    · simp only [if_neg hmem] at h
      split at h
      · exact absurd h (by simp)
      · cases h
        simp only [overlapMeasure, List.length_append, List.length_cons,
          List.length_nil]
        push_cast
        ring
  · cases h
    simp only [overlapMeasure, List.length_append, List.length_cons, List.length_nil]
    push_cast
    ring

theorem foldlM_overlapStep_ok (l : List (Int × Int)) :
    ∀ st : OverlapState,
      (∀ e, l.foldlM overlapStep st = .error e → e = .divByZero) ∧
      (∀ st', l.foldlM overlapStep st = .ok st' →
        overlapMeasure st' = overlapMeasure st + l.length) := by
  induction l with
  | nil =>
    intro st
    constructor
    · intro e he
      rw [List.foldlM_nil, exceptPure] at he
      cases he
    · intro st' h
      rw [List.foldlM_nil, exceptPure] at h
      cases h
      simp
  | cons p rest ih =>
    intro st
    constructor
    · intro e he
      rw [List.foldlM_cons] at he
      cases hstep : overlapStep st p with
      | error e' =>
        rw [hstep, exceptBindError] at he
        cases he
        cases e with
        | divByZero => rfl
        | assertFail => exact absurd hstep (overlapStep_ne_assertFail st p)
      | ok st1 =>
        rw [hstep, exceptBindOk] at he
        exact (ih st1).1 e he
    · intro st' h
      rw [List.foldlM_cons] at h
      cases hstep : overlapStep st p with
      | error e' =>
        rw [hstep, exceptBindError] at h
        cases h
      | ok st1 =>
        rw [hstep, exceptBindOk] at h
        have h1 := (ih st1).2 st' h
        have h2 := overlapStep_measure st st1 p hstep
        rw [h1, h2]
        simp only [List.length_cons]
        push_cast
        ring

theorem findOverlapsScaffold_error (positions : List (Int × Int)) (e : OverlapError)
    (h : findOverlapsScaffold positions = .error e) : e = .divByZero := by
  unfold findOverlapsScaffold at h
  cases hf : positions.foldlM overlapStep ⟨0, 0, [], [], 0⟩ with
  | error e' =>
    rw [hf, exceptBindError] at h
    cases h
    exact (foldlM_overlapStep_ok positions ⟨0, 0, [], [], 0⟩).1 e hf
  | ok st =>
    rw [hf, exceptBindOk] at h
    have hm := (foldlM_overlapStep_ok positions ⟨0, 0, [], [], 0⟩).2 st hf
    have hm0 : overlapMeasure st = positions.length := by
      rw [hm]; simp [overlapMeasure]
    rw [if_pos] at h
    · cases h
    · rw [← hm0]; simp [overlapMeasure]

theorem findOverlapsScaffold_ok (positions : List (Int × Int)) (st : OverlapState)
    (h : findOverlapsScaffold positions = .ok st) :
    (positions.length : Int) =
      st.non_overlap.length + 2 * st.overlap.length - st.correction := by
  unfold findOverlapsScaffold at h
  cases hf : positions.foldlM overlapStep ⟨0, 0, [], [], 0⟩ with
  | error e' =>
    rw [hf, exceptBindError] at h
    cases h
  | ok st1 =>
    rw [hf, exceptBindOk] at h
    split at h
    · cases h
      assumption
    · cases h

/-- C1: For every mapping from scaffolds to interval lists, `find_overlaps`
returns, for every scaffold, a partition satisfying
`len(intervals) == len(non_overlap) + 2*len(overlap) - correction`; in
particular the `assert` at `prune_tools.py:77` never fails, for overlap chains
of any length (indeed for arbitrary interval lists). -/
theorem find_overlaps_assertion_holds (intronCoords : List (String × List (Int × Int))) :
    find_overlaps intronCoords ≠ .error .assertFail ∧
    ∀ g ∈ intronCoords, ∀ st, findOverlapsScaffold g.2 = .ok st →
      (g.2.length : Int) =
        st.non_overlap.length + 2 * st.overlap.length - st.correction := by
  constructor
  · unfold find_overlaps
    induction intronCoords with
    | nil =>
      intro h
      rw [List.mapM_nil, exceptPure] at h
      cases h
    | cons g rest ih =>
      intro h
      rw [List.mapM_cons] at h
      cases hs : findOverlapsScaffold g.2 with
      | error e =>
        rw [hs, exceptBindError] at h
        cases h
        exact absurd (findOverlapsScaffold_error g.2 _ hs) (by simp)
      | ok st =>
        rw [hs, exceptBindOk, exceptPureBind] at h
        cases hrest : rest.mapM fun g => do
            let st ← findOverlapsScaffold g.2
            pure (g.1, st) with
        | error e =>
          rw [hrest, exceptBindError] at h
          cases h
          exact ih hrest
        | ok sts =>
          rw [hrest, exceptBindOk, exceptPure] at h
          cases h
  · intro g _ st hok
    exact findOverlapsScaffold_ok g.2 st hok

theorem find_overlaps_assertion_holds_witness :
    find_overlaps [("scaff", [(1, 10), (5, 15), (12, 20)])] ≠ .error .assertFail ∧
    (([(1, 10), (5, 15), (12, 20)] : List (Int × Int)).length : Int) =
      (OverlapState.mk 12 20 [] [(1, 10, 5, 15), (5, 15, 12, 20)] 1).non_overlap.length +
        2 * (OverlapState.mk 12 20 [] [(1, 10, 5, 15), (5, 15, 12, 20)] 1).overlap.length -
        (OverlapState.mk 12 20 [] [(1, 10, 5, 15), (5, 15, 12, 20)] 1).correction :=
  ⟨(find_overlaps_assertion_holds [("scaff", [(1, 10), (5, 15), (12, 20)])]).1,
   (find_overlaps_assertion_holds [("scaff", [(1, 10), (5, 15), (12, 20)])]).2
     ("scaff", [(1, 10), (5, 15), (12, 20)]) (by simp) _ (by rfl)⟩

/-- C6: On the three-way chain `(1,10),(5,15),(12,20)` the classifier
returns exactly the two overlap pairs `(1,10,5,15)` and `(5,15,12,20)`, an
empty `non_overlap` list, and `correction = 1`. -/
theorem findOverlapsScaffold_chain_example :
    findOverlapsScaffold [(1, 10), (5, 15), (12, 20)] =
      .ok ⟨12, 20, [], [(1, 10, 5, 15), (5, 15, 12, 20)], 1⟩ := by
  rfl

/-- C7 (code bug): The overlap-ratio division at `prune_tools.py:69` is *not*
guarded: on a sorted list whose degenerate interval `(3,3)` (with
`start == end`) is overlapped by the next interval `(3,10)`, the divisor
`last_end - last_start` is zero and `find_overlaps` aborts with
`ZeroDivisionError` instead of completing. -/
theorem find_overlaps_degenerate_divByZero :
    find_overlaps [("scaff", [(3, 3), (3, 10)])] = .error .divByZero := by
  rfl

/-- Resolution of a Python slice bound for a sequence of length `n`
(step 1): a negative index counts from the end, clamped at `0`; a
non-negative index is clamped at `n`. -/
def pyIndex (n : Nat) (i : Int) : Nat :=
  if i < 0 then ((n : Int) + i).toNat else min i.toNat n

/-- Python slice `l[a:b]`. -/
def pySlice (l : List Char) (a b : Int) : List Char :=
  (l.take (pyIndex l.length b)).drop (pyIndex l.length a)

/-- Python slice `l[a:]`. -/
def pySliceFrom (l : List Char) (a : Int) : List Char :=
  l.drop (pyIndex l.length a)

/-- The loop of `prune_non_overlap_introns` (`prune_tools.py:91-112`),
with the accumulated state (`exon_begin`, the coordinate mapping and the
purged scaffold built so far) as explicit arguments.  Introns with
`intron_end - intron_begin > 80` are skipped (`prune_tools.py:96`); an
excised intron contributes the exon slice
`scaffold_dna[exon_begin : intron_begin - 1]` and the anchor
`(exon_begin, len(purged_scaffold))`, then `exon_begin` moves to
`intron_end`.  After the loop the final anchor and the tail slice
`scaffold_dna[exon_begin:]` are appended. -/
def pruneGo (scaffold_dna : List Char) (exon_begin : Int)
    (mapping : List (Int × Nat)) (purged : List Char) :
    List (Int × Int) → List Char × List (Int × Nat)
  | [] =>
    (purged ++ pySliceFrom scaffold_dna exon_begin,
      mapping ++ [(exon_begin, purged.length)])
  | (intron_begin, intron_end) :: rest =>
    if intron_end - intron_begin > 80 then
      pruneGo scaffold_dna exon_begin mapping purged rest
    else
      let exon_end := intron_begin - 1
      let exon_seq := pySlice scaffold_dna exon_begin exon_end
      pruneGo scaffold_dna intron_end
        (mapping ++ [(exon_begin, purged.length)]) (purged ++ exon_seq) rest

/-- Function `prune_non_overlap_introns` (`prune_tools.py:83-114`): returns the purged
scaffold and the exon coordinate mapping. -/
def prune_non_overlap_introns (scaffold_dna : List Char)
    (non_overlap_introns : List (Int × Int)) : List Char × List (Int × Nat) :=
  pruneGo scaffold_dna 0 [] [] non_overlap_introns

/-- Well-formed intron list for a sequence of length `n`: 1-based inclusive
coordinates, `start <= end`, sorted ascending and pairwise non-overlapping
(each `start` is strictly beyond the previous `end`, which starts at `0`),
and inside the sequence bounds. -/
def wfIntrons (n : Int) : Int → List (Int × Int) → Bool
  | _, [] => true
  | lo, (s, e) :: rest => lo < s && s ≤ e && e ≤ n && wfIntrons n e rest

/-- C5: the function `prune` with an empty intron list returns the original sequence
unchanged and the single coordinate anchor `(0, 0)`. -/
theorem prune_empty_introns (scaffold_dna : List Char) :
    prune_non_overlap_introns scaffold_dna [] = (scaffold_dna, [(0, 0)]) := by
  simp [prune_non_overlap_introns, pruneGo, pySliceFrom, pyIndex]

theorem pyIndex_of_le (n : Nat) (i : Int) (h0 : 0 ≤ i) (h : i ≤ n) :
    pyIndex n i = i.toNat := by
  simp only [pyIndex, if_neg (not_lt.mpr h0)]
  omega

theorem pyIndex_of_ge (n : Nat) (i : Int) (h0 : 0 ≤ i) (h : (n : Int) ≤ i) :
    pyIndex n i = n := by
  simp only [pyIndex, if_neg (not_lt.mpr h0)]
  omega

theorem pySlice_from_zero (l : List Char) (b : Int) (h0 : 0 ≤ b) :
    pySlice l 0 b = l.take b.toNat := by
  simp only [pySlice, pyIndex_of_le l.length 0 le_rfl (by exact_mod_cast Nat.zero_le _)]
  rw [Int.toNat_zero, List.drop_zero]
  rcases le_or_lt b l.length with hb | hb
  · rw [pyIndex_of_le l.length b h0 hb]
  · rw [pyIndex_of_ge l.length b h0 hb.le, List.take_length,
      List.take_of_length_le (by omega)]

/-- C3 counterexample: The intron `(1, 81)` has 1-based inclusive
length `81 - 1 + 1 = 81 > 80`, yet `prune` *excises* it — the threshold test
at `prune_tools.py:96` is `intron_end - intron_begin > 80`, not
`end - start + 1 > max_intron_length`, and `80` is a hardcoded literal. -/
theorem prune_length81_excised :
    prune_non_overlap_introns (List.replicate 81 'A') [(1, 81)] =
      ([], [(0, 0), (81, 0)]) ∧ (81 : Int) - 1 + 1 > 80 := by
  constructor
  · rfl
  · decide

/-- C3 amended: the function `prune` excises exactly the in-bounds introns with
`end - start ≤ 80` (1-based inclusive length at most `81`); an intron with
`end - start > 80` is skipped and the sequence is returned untouched.  The
threshold `80` is a hardcoded constant in `prune_tools.py:96`, not a
parameter of the function. -/
theorem prune_threshold_hardcoded80 (dna : List Char) (s e : Int)
    (h1 : 1 ≤ s) (h2 : s ≤ e) (h3 : e ≤ (dna.length : Int)) :
    (e - s > 80 → prune_non_overlap_introns dna [(s, e)] = (dna, [(0, 0)])) ∧
    (e - s ≤ 80 → prune_non_overlap_introns dna [(s, e)] =
      (dna.take (s - 1).toNat ++ dna.drop e.toNat,
        [(0, 0), (e, (s - 1).toNat)])) := by
  constructor
  · intro hlong
    unfold prune_non_overlap_introns pruneGo
    rw [if_pos hlong]
    simp [pruneGo, pySliceFrom, pyIndex]
  · intro hshort
    unfold prune_non_overlap_introns pruneGo
    rw [if_neg (not_lt.mpr hshort)]
    simp only [pruneGo, pySliceFrom, List.nil_append, List.length_nil]
    rw [pySlice_from_zero dna (s - 1) (by omega),
      pyIndex_of_le dna.length e (by omega) h3]
    have hlen : (dna.take (s - 1).toNat).length = (s - 1).toNat := by
      simp only [List.length_take]
      omega
    rw [hlen]
    rfl

theorem prune_threshold_hardcoded80_witness :
    prune_non_overlap_introns ['A', 'B', 'C', 'D', 'E', 'F'] [(2, 3)] =
      (['A', 'B', 'C', 'D', 'E', 'F'].take 1 ++ ['A', 'B', 'C', 'D', 'E', 'F'].drop 3,
        [(0, 0), (3, 1)]) :=
  (prune_threshold_hardcoded80 ['A', 'B', 'C', 'D', 'E', 'F'] 2 3
    (by decide) (by decide) (by decide)).2 (by decide)

/-- C8 counterexample: On the 3-base sequence `"ABC"` with the
out-of-bounds intron `(2, 50)`, `prune` does *not* fail: Python slicing
clamps silently and a normal pruned result is returned.  No
`OutOfRangeInterval` (or any other) error exists in
`prune_non_overlap_introns`. -/
theorem prune_out_of_range_returns :
    prune_non_overlap_introns ['A', 'B', 'C'] [(2, 50)] =
      (['A'], [(0, 0), (50, 1)]) ∧ (50 : Int) > (['A', 'B', 'C'] : List Char).length := by
  constructor
  · rfl
  · decide

/-- C8 amended: the function `prune` performs no bounds checking: an interval
reaching past the end of the sequence is silently clamped by slice
semantics — the prefix before the intron is kept, the tail slice is empty,
and a normal `(pruned, mapping)` pair is returned. -/
theorem prune_out_of_range_clamps (dna : List Char) (s e : Int)
    (h1 : 1 ≤ s) (h2 : s ≤ e) (h3 : e - s ≤ 80) (h4 : (dna.length : Int) ≤ e) :
    prune_non_overlap_introns dna [(s, e)] =
      (dna.take (s - 1).toNat,
        [(0, 0), (e, (dna.take (s - 1).toNat).length)]) := by
  unfold prune_non_overlap_introns pruneGo
  rw [if_neg (not_lt.mpr h3)]
  simp only [pruneGo, pySliceFrom, List.nil_append, List.length_nil]
  rw [pySlice_from_zero dna (s - 1) (by omega),
    pyIndex_of_ge dna.length e (by omega) h4, List.drop_length, List.append_nil]
  rfl

theorem prune_out_of_range_clamps_witness :
    prune_non_overlap_introns ['X', 'Y'] [(1, 50)] = ([], [(0, 0), (50, 0)]) := by
  have h := prune_out_of_range_clamps ['X', 'Y'] 1 50
    (by decide) (by decide) (by decide) (by decide)
  simpa using h

/-- C4 counterexample: On the 6-base sequence with the single
well-formed intron `(1, 2)` (sorted, non-overlapping, in bounds) the
coordinate map is `[(0, 0), (2, 0)]`: the exon span before the intron is
empty, so the two anchors share the pruned position `0` — the map is *not*
strictly increasing in the pruned component. -/
theorem prune_mapping_not_strict :
    wfIntrons 6 0 [(1, 2)] = true ∧
    (prune_non_overlap_introns ['A', 'B', 'C', 'D', 'E', 'F'] [(1, 2)]).2 =
      [(0, 0), (2, 0)] ∧
    ¬ List.Chain' (fun a b : Int × Nat => a.2 < b.2) [((0 : Int), (0 : Nat)), (2, 0)] := by
  refine ⟨by decide, by rfl, ?_⟩
  intro hc
  rw [List.chain'_cons] at hc
  exact absurd hc.1 (lt_irrefl 0)

theorem pruneGo_mapping_chain (dna : List Char) :
    ∀ (introns : List (Int × Int)) (lo exon_begin : Int)
      (mapping : List (Int × Nat)) (purged : List Char),
      wfIntrons dna.length lo introns = true →
      exon_begin ≤ lo →
      List.Chain' (fun a b : Int × Nat => a.1 < b.1 ∧ a.2 ≤ b.2) mapping →
      (∀ a ∈ mapping.getLast?, a.1 < exon_begin ∧ a.2 ≤ purged.length) →
      List.Chain' (fun a b : Int × Nat => a.1 < b.1 ∧ a.2 ≤ b.2)
        (pruneGo dna exon_begin mapping purged introns).2 := by
  intro introns
  induction introns with
  | nil =>
    intro lo exon_begin mapping purged _ _ hchain hlast
    simp only [pruneGo]
    rw [List.chain'_append]
    refine ⟨hchain, List.chain'_singleton _, ?_⟩
    intro a ha b hb
    simp only [List.head?_cons, Option.mem_def, Option.some.injEq] at hb
    subst hb
    exact hlast a ha
  | cons p rest ih =>
    intro lo exon_begin mapping purged hwf hle hchain hlast
    obtain ⟨s, e⟩ := p
    simp only [wfIntrons, Bool.and_eq_true, decide_eq_true_eq] at hwf
    obtain ⟨⟨⟨hlo, hse⟩, hen⟩, hwf'⟩ := hwf
    simp only [pruneGo]
    split
    · exact ih e exon_begin mapping purged hwf' (by omega) hchain hlast
    · apply ih e e
      · exact hwf'
      · exact le_rfl
      · rw [List.chain'_append]
        refine ⟨hchain, List.chain'_singleton _, ?_⟩
        intro a ha b hb
        simp only [List.head?_cons, Option.mem_def, Option.some.injEq] at hb
        subst hb
        exact hlast a ha
      · intro a ha
        rw [List.getLast?_concat] at ha
        simp only [Option.mem_def, Option.some.injEq] at ha
        subst ha
        constructor
        · omega
        · simp

/-- C4 amended: For every sequence and every sorted, pairwise
non-overlapping, in-bounds intron list, the coordinate map returned by
`prune` is strictly increasing in the original component and non-decreasing
(but not necessarily strictly increasing) in the pruned component. -/
theorem prune_mapping_monotone (dna : List Char) (introns : List (Int × Int))
    (h : wfIntrons dna.length 0 introns = true) :
    List.Chain' (fun a b : Int × Nat => a.1 < b.1 ∧ a.2 ≤ b.2)
      (prune_non_overlap_introns dna introns).2 := by
  unfold prune_non_overlap_introns
  apply pruneGo_mapping_chain dna introns 0 0 [] [] h le_rfl
  · exact List.chain'_nil
  · intro a ha
    simp at ha

theorem prune_mapping_monotone_witness :
    List.Chain' (fun a b : Int × Nat => a.1 < b.1 ∧ a.2 ≤ b.2)
      (prune_non_overlap_introns ['A', 'B', 'C', 'D', 'E', 'F', 'G', 'H']
        [(2, 3), (5, 6)]).2 :=
  prune_mapping_monotone ['A', 'B', 'C', 'D', 'E', 'F', 'G', 'H']
    [(2, 3), (5, 6)] (by decide)

/-- Total length (1-based inclusive, `end - start + 1`) of the introns that
pass the excision test `intron_end - intron_begin <= 80` of
`prune_tools.py:96`. -/
def excisedLen (introns : List (Int × Int)) : Int :=
  ((introns.filter fun p => decide (p.2 - p.1 ≤ 80)).map fun p => p.2 - p.1 + 1).sum

theorem pruneGo_length (dna : List Char) :
    ∀ (introns : List (Int × Int)) (lo exon_begin : Int)
      (mapping : List (Int × Nat)) (purged : List Char),
      wfIntrons dna.length lo introns = true →
      0 ≤ exon_begin → exon_begin ≤ lo → lo ≤ (dna.length : Int) →
      ((pruneGo dna exon_begin mapping purged introns).1.length : Int) =
        purged.length + ((dna.length : Int) - exon_begin) - excisedLen introns := by
  intro introns
  induction introns with
  | nil =>
    intro lo exon_begin mapping purged _ hb0 hblo hlon
    simp only [pruneGo, pySliceFrom, List.length_append, List.length_drop,
      pyIndex_of_le dna.length exon_begin hb0 (le_trans hblo hlon), excisedLen,
      List.filter_nil, List.map_nil, List.sum_nil]
    push_cast
    omega
  | cons p rest ih =>
    intro lo exon_begin mapping purged hwf hb0 hblo hlon
    obtain ⟨s, e⟩ := p
    simp only [wfIntrons, Bool.and_eq_true, decide_eq_true_eq] at hwf
    obtain ⟨⟨⟨hlo, hse⟩, hen⟩, hwf'⟩ := hwf
    simp only [pruneGo]
    split
    · rename_i hlong
      have hskip : excisedLen ((s, e) :: rest) = excisedLen rest := by
        simp only [excisedLen, List.filter_cons, decide_eq_true_eq]
        rw [if_neg (by omega)]
      rw [hskip]
      exact ih e exon_begin mapping purged hwf' hb0 (by omega) hen
    · rename_i hshort
      have hexc : excisedLen ((s, e) :: rest) = (e - s + 1) + excisedLen rest := by
        simp only [excisedLen, List.filter_cons, decide_eq_true_eq]
        rw [if_pos (by omega)]
        simp
      rw [hexc]
      have hrec := ih e e
        (mapping ++ [(exon_begin, purged.length)])
        (purged ++ pySlice dna exon_begin (s - 1)) hwf' (by omega) le_rfl hen
      rw [hrec]
      have hslice : ((pySlice dna exon_begin (s - 1)).length : Int) =
          (s - 1) - exon_begin := by
        simp only [pySlice, List.length_drop, List.length_take,
          pyIndex_of_le dna.length exon_begin hb0 (by omega),
          pyIndex_of_le dna.length (s - 1) (by omega) (by omega)]
        omega
      simp only [List.length_append]
      push_cast
      omega

/-- C10: For every sequence and every sorted, pairwise non-overlapping,
in-bounds 1-based intron list, the length of the pruned sequence equals the
length of the original sequence minus the sum of `end - start + 1` over
exactly the excised introns (those with `end - start <= 80`): the pruned
sequence is never longer than the original, and the excised introns account
for the entire length difference. -/
theorem prune_length_equation (dna : List Char) (introns : List (Int × Int))
    (h : wfIntrons dna.length 0 introns = true) :
    ((prune_non_overlap_introns dna introns).1.length : Int) =
      (dna.length : Int) - excisedLen introns := by
  have hgo := pruneGo_length dna introns 0 0 [] [] h le_rfl le_rfl
    (by exact_mod_cast Nat.zero_le _)
  simpa using hgo

theorem prune_length_equation_witness :
    (((prune_non_overlap_introns ['A', 'B', 'C', 'D', 'E', 'F', 'G', 'H']
        [(2, 3), (6, 7)]).1.length : Int) =
      ((['A', 'B', 'C', 'D', 'E', 'F', 'G', 'H'] : List Char).length : Int) -
        excisedLen [(2, 3), (6, 7)]) :=
  prune_length_equation ['A', 'B', 'C', 'D', 'E', 'F', 'G', 'H']
    [(2, 3), (6, 7)] (by decide)

/-- The interpolation procedure the spec prescribes for consumers of a
`CoordinateMap` (the callers of `prune_non_overlap_introns` interpolate;
this follows the spec wording): find the anchor with the largest
`pruned <= p` — with ties resolved to the latest such anchor — and return
`orig + (p - pruned)`. -/
def interpolate (mapping : List (Int × Nat)) (p : Nat) : Int :=
  match (mapping.filter fun a => decide (a.2 ≤ p)).getLast? with
  | some a => a.1 + ((p - a.2 : Nat) : Int)
  | none => 0

/-- Round-trip invariant for the accumulated state of `pruneGo`: every
position of the purged prefix is explained by the anchor the interpolation
rule selects from the accumulated mapping. -/
def RoundTripInv (dna : List Char) (mapping : List (Int × Nat))
    (purged : List Char) : Prop :=
  ∀ p : Nat, p < purged.length →
    ∃ a : Int × Nat,
      (mapping.filter fun x => decide (x.2 ≤ p)).getLast? = some a ∧
      0 ≤ a.1 ∧ a.2 ≤ p ∧ purged[p]? = dna[a.1.toNat + (p - a.2)]?

theorem roundTripInv_append (dna : List Char) (mapping : List (Int × Nat))
    (purged added : List Char) (orig : Int) (h0 : 0 ≤ orig)
    (hInv : RoundTripInv dna mapping purged)
    (hadd : ∀ i : Nat, i < added.length →
      added[i]? = dna[orig.toNat + i]?) :
    RoundTripInv dna (mapping ++ [(orig, purged.length)]) (purged ++ added) := by
  intro p hp
  rw [List.filter_append]
  by_cases hcase : p < purged.length
  · have hf : List.filter (fun x => decide (x.2 ≤ p)) [(orig, purged.length)] = [] := by
      simp only [List.filter_cons, List.filter_nil, decide_eq_true_eq]
      rw [if_neg (by omega)]
    rw [hf, List.append_nil]
    obtain ⟨a, hlast, ha0, hap, hval⟩ := hInv p hcase
    exact ⟨a, hlast, ha0, hap, by rw [List.getElem?_append_left hcase]; exact hval⟩
  · push_neg at hcase
    have hf : List.filter (fun x => decide (x.2 ≤ p)) [(orig, purged.length)] =
        [(orig, purged.length)] := by
      simp only [List.filter_cons, List.filter_nil, decide_eq_true_eq]
      rw [if_pos hcase]
    rw [hf, List.getLast?_concat]
    refine ⟨(orig, purged.length), rfl, h0, hcase, ?_⟩
    rw [List.getElem?_append_right hcase]
    rw [List.length_append] at hp
    exact hadd (p - purged.length) (by omega)

theorem pruneGo_roundtrip (dna : List Char) :
    ∀ (introns : List (Int × Int)) (lo exon_begin : Int)
      (mapping : List (Int × Nat)) (purged : List Char),
      wfIntrons dna.length lo introns = true →
      0 ≤ exon_begin → exon_begin ≤ lo → lo ≤ (dna.length : Int) →
      RoundTripInv dna mapping purged →
      RoundTripInv dna (pruneGo dna exon_begin mapping purged introns).2
        (pruneGo dna exon_begin mapping purged introns).1 := by
  intro introns
  induction introns with
  | nil =>
    intro lo exon_begin mapping purged _ hb0 hblo hlon hInv
    simp only [pruneGo, pySliceFrom,
      pyIndex_of_le dna.length exon_begin hb0 (le_trans hblo hlon)]
    apply roundTripInv_append dna mapping purged _ exon_begin hb0 hInv
    intro i _
    rw [List.getElem?_drop]
  | cons q rest ih =>
    intro lo exon_begin mapping purged hwf hb0 hblo hlon hInv
    obtain ⟨s, e⟩ := q
    simp only [wfIntrons, Bool.and_eq_true, decide_eq_true_eq] at hwf
    obtain ⟨⟨⟨hlo, hse⟩, hen⟩, hwf'⟩ := hwf
    simp only [pruneGo]
    split
    · exact ih e exon_begin mapping purged hwf' hb0 (by omega) hen hInv
    · apply ih e e _ _ hwf' (by omega) le_rfl hen
      apply roundTripInv_append dna mapping purged _ exon_begin hb0 hInv
      intro i hi
      simp only [pySlice,
        pyIndex_of_le dna.length exon_begin hb0 (by omega),
        pyIndex_of_le dna.length (s - 1) (by omega) (by omega)] at hi ⊢
      rw [List.getElem?_drop, List.getElem?_take_of_lt]
      simp only [List.length_drop, List.length_take] at hi
      omega

/-- C2: For every sequence and every sorted, non-overlapping, in-bounds
1-based intron list, and every position `p` of the pruned sequence returned
by `prune`, interpolating `p` through the returned coordinate map (anchor
with largest `pruned <= p`, then `orig + (p - pruned)`) and indexing the
original sequence there yields the same base as the pruned sequence at `p`. -/
theorem prune_roundtrip (dna : List Char) (introns : List (Int × Int))
    (h : wfIntrons dna.length 0 introns = true)
    (p : Nat) (hp : p < (prune_non_overlap_introns dna introns).1.length) :
    (prune_non_overlap_introns dna introns).1[p]? =
      dna[(interpolate (prune_non_overlap_introns dna introns).2 p).toNat]? := by
  have hInv := pruneGo_roundtrip dna introns 0 0 [] [] h le_rfl le_rfl
    (by exact_mod_cast Nat.zero_le _) (by intro p hp; simp at hp)
  obtain ⟨a, hlast, ha0, hap, hval⟩ :=
    hInv p (by exact hp)
  unfold prune_non_overlap_introns
  rw [interpolate, hlast]
  have ht : (a.1 + ((p - a.2 : Nat) : Int)).toNat = a.1.toNat + (p - a.2) := by
    omega
  rw [ht]
  exact hval

theorem prune_roundtrip_witness :
    (prune_non_overlap_introns ['A', 'B', 'C', 'D', 'E', 'F', 'G', 'H']
        [(3, 4)]).1[3]? =
      (['A', 'B', 'C', 'D', 'E', 'F', 'G', 'H'] : List Char)[
        (interpolate (prune_non_overlap_introns
          ['A', 'B', 'C', 'D', 'E', 'F', 'G', 'H'] [(3, 4)]).2 3).toNat]? :=
  prune_roundtrip ['A', 'B', 'C', 'D', 'E', 'F', 'G', 'H'] [(3, 4)]
    (by decide) 3 (by decide)

end PruneTools

namespace CuttingDiagnostics

/-- Positional-overlap test between a probe interval and a container
interval: `probe.start <= container.end && probe.end >= container.start`. -/
def interval_intersects (container probe : Int × Int) : Bool :=
  probe.1 ≤ container.2 && probe.2 ≥ container.1

/-- Modelled from the spec: `intragen_tools.intraexonic_cuts_in_scaffold`
(called at `cutting_diagnostics.py:149`) is not under `src/` — only its
caller is.  Per the spec it returns, for one scaffold, the per-probe flags
(whether the probe interval has any positional overlap with any container
interval, by the naive all-pairs test) together with the total container
length used by the per-1000bp diagnostic. -/
def intraexonic_cuts_in_scaffold (containers probes : List (Int × Int)) :
    List Bool × Int :=
  (probes.map fun p => containers.any fun c => interval_intersects c p,
    (containers.map fun c => c.2 - c.1 + 1).sum)

/-- One iteration of the loop in `intraexonic_cuts_count`
(`cutting_diagnostics.py:142-155`): look up the container group of the scaffold;
on `KeyError` log a warning (collected in the second component) and
`continue`; otherwise add the within-container count of the scaffold
(`sum(exon_cuts)`) to the running total. -/
def cutsCountStep (exon_grouped : List (String × List (Int × Int)))
    (acc : Nat × List String) (g : String × List (Int × Int)) :
    Nat × List String :=
  match exon_grouped.lookup g.1 with
  | none => (acc.1, acc.2 ++ [g.1])
  | some containers =>
      (acc.1 + (intraexonic_cuts_in_scaffold containers g.2).1.count true, acc.2)

/-- Function `intraexonic_cuts_count` (`cutting_diagnostics.py:133-157`): fold the
loop body over the probe groups starting from `total_intraexon_cuts = 0`;
the result is the returned total together with the warnings emitted. -/
def intraexonic_cuts_count
    (exon_grouped cuts_grouped : List (String × List (Int × Int))) :
    Nat × List String :=
  cuts_grouped.foldl (cutsCountStep exon_grouped) (0, [])

theorem cutsCount_foldl_shift (exon_grouped : List (String × List (Int × Int))) :
    ∀ (cuts : List (String × List (Int × Int))) (t : Nat) (w : List String),
      cuts.foldl (cutsCountStep exon_grouped) (t, w) =
        (t + (cuts.foldl (cutsCountStep exon_grouped) (0, [])).1,
          w ++ (cuts.foldl (cutsCountStep exon_grouped) (0, [])).2) := by
  intro cuts
  induction cuts with
  | nil => intro t w; simp [List.foldl]
  | cons g rest ih =>
    intro t w
    rw [List.foldl_cons, List.foldl_cons]
    cases hl : exon_grouped.lookup g.1 with
    | none =>
      simp only [cutsCountStep, hl, List.nil_append]
      rw [ih t (w ++ [g.1]), ih 0 [g.1]]
      simp [List.append_assoc]
    | some containers =>
      simp only [cutsCountStep, hl, Nat.zero_add]
      rw [ih (t + (intraexonic_cuts_in_scaffold containers g.2).1.count true) w,
        ih ((intraexonic_cuts_in_scaffold containers g.2).1.count true) []]
      simp only [List.nil_append]
      rw [Nat.add_assoc]

/-- C9: When a probe scaffold has no matching container scaffold,
`intraexonic_cuts_count` records a warning for it, skips it without raising
an exception (the function is total and continues), contributes zero to the
total for that scaffold, and still processes and sums the counts of all
remaining scaffolds. -/
theorem intraexonic_cuts_count_missing_scaffold
    (exon_grouped : List (String × List (Int × Int)))
    (scaffold : String) (probes : List (Int × Int))
    (rest : List (String × List (Int × Int)))
    (h : exon_grouped.lookup scaffold = none) :
    intraexonic_cuts_count exon_grouped ((scaffold, probes) :: rest) =
      ((intraexonic_cuts_count exon_grouped rest).1,
        scaffold :: (intraexonic_cuts_count exon_grouped rest).2) := by
  unfold intraexonic_cuts_count
  rw [List.foldl_cons]
  simp only [cutsCountStep, h, List.nil_append]
  rw [cutsCount_foldl_shift exon_grouped rest 0 [scaffold]]
  simp

theorem intraexonic_cuts_count_missing_scaffold_witness :
    intraexonic_cuts_count [("scaffA", [(1, 5)])]
      [("scaffB", [(2, 3)]), ("scaffA", [(2, 3)])] = (1, ["scaffB"]) := by
  rw [intraexonic_cuts_count_missing_scaffold [("scaffA", [(1, 5)])]
    "scaffB" [(2, 3)] [("scaffA", [(2, 3)])] (by rfl)]
  rfl

end CuttingDiagnostics
